import Mathlib

/-!
# Verification of the schema-migration engine (`src/db/migrator.py`)

Shallow embedding of the migration runner of `remnawave-tg-shop`.

The store visible to the migrator is modelled by `DB`:
* the `users` table — its set of column names (`userCols`, read through the
  SQLAlchemy inspector) and its rows (`users`), of which only the columns the
  migration bodies touch are modelled (`user_id`, `referral_code`);
* the partial unique index `uq_users_referral_code` (`uqIndex`);
* the bookkeeping table `schema_migrations` (`migTable` for its existence,
  `history` for its rows, each row carrying `id` and `applied_at`);
* `clock` models the monotone `NOW()` timestamps stamped on history rows;
* `rng` models the `md5(.. clock_timestamp() .. random() ..)` entropy consumed
  by the referral-code backfill: each backfill that touches at least one row
  advances it, and a generated code is a deterministic function of the user id
  and the current `rng` value.

Python exceptions are modelled with `Except Exc` (`Exc` is the opaque payload
of the raised exception); the savepoint opened by `connection.begin_nested()`
is modelled by discarding the partially-updated state when the body or the
history insert fails.  `logging` calls are collected in a `LogEntry` list.
-/

namespace Migrator

/-- A row of the `users` table, restricted to the columns the migration
bodies read or write. -/
structure URow where
  user_id : Nat
  referral_code : Option String
deriving DecidableEq, Repr

/-- A row of the `schema_migrations` bookkeeping table:
`id VARCHAR PRIMARY KEY, applied_at TIMESTAMPTZ DEFAULT NOW()`. -/
structure HRow where
  id : String
  applied_at : Nat
deriving DecidableEq, Repr

/-- The state of the store as seen by the migrator. -/
structure DB where
  userCols : List String
  users : List URow
  uqIndex : Bool
  migTable : Bool
  history : List HRow
  clock : Nat
  rng : Nat
deriving DecidableEq, Repr

/-- Payload of a raised exception. -/
abbrev Exc := String

/-- `Migration` dataclass: `id`, `description`, `upgrade` procedure.  The
upgrade receives the connection (here: the store state) and may raise. -/
structure Migration where
  id : String
  description : String
  upgrade : DB → Except Exc DB

/-- The SQL statements the four upgrade bodies can execute against `users`. -/
inductive Stmt where
  | addUserCol (c : String)
  | backfillReferralCodes
  | createUqIndex
  | normalizeReferralCodes
deriving DecidableEq, Repr

/-- SQL `UPPER` on one character (basic-latin case mapping). -/
def upChar (c : Char) : Char := Char.toUpper c

/-- SQL `UPPER` on a string, applied characterwise. -/
def sqlUpper (s : String) : String := ⟨s.data.map upChar⟩

/-- The referral code generated for `user_id` by
`UPPER(SUBSTRING(md5(user_id || clock_timestamp() || random()) FROM 1 FOR 9))`,
modelled as a deterministic nonempty function of the user id and the entropy
counter. -/
def genCode (uid rng : Nat) : String := "R" ++ toString uid ++ "X" ++ toString rng

/-- The backfill's `WHERE referral_code IS NULL OR referral_code = ''`. -/
def needsCode (r : URow) : Bool :=
  match r.referral_code with
  | none => true
  | some s => s = ""

/-- Effect of the backfill on one row: rows caught by the `WHERE` clause get
a generated code, the rest are untouched. -/
def fillRow (rng : Nat) (r : URow) : URow :=
  if needsCode r then { r with referral_code := some (genCode r.user_id rng) } else r

/-- Effect of the normalization `UPDATE` on one row:
`SET referral_code = UPPER(referral_code)
 WHERE referral_code IS NOT NULL AND referral_code <> UPPER(referral_code)`. -/
def normRow (r : URow) : URow :=
  match r.referral_code with
  | some s => if sqlUpper s ≠ s then { r with referral_code := some (sqlUpper s) } else r
  | none => r

/-- Effect of one statement on the store. -/
def execStmt (db : DB) (s : Stmt) : DB :=
  match s with
  | .addUserCol c => { db with userCols := db.userCols ++ [c] }
  | .backfillReferralCodes =>
      if db.users.any needsCode then
        { db with users := db.users.map (fillRow db.rng), rng := db.rng + 1 }
      else db
  | .createUqIndex => { db with uqIndex := true }
  | .normalizeReferralCodes =>
      { db with users := db.users.map normRow }

/-- Run a list of statements in order. -/
def execStmts (db : DB) (l : List Stmt) : DB := l.foldl execStmt db

/-- `_migration_0001_add_channel_subscription_fields`: the statement list the
body builds after inspecting the current columns of `users`. -/
def stmts_0001 (db : DB) : List Stmt :=
  (if "channel_subscription_verified" ∈ db.userCols then []
   else [.addUserCol "channel_subscription_verified"]) ++
  (if "channel_subscription_checked_at" ∈ db.userCols then []
   else [.addUserCol "channel_subscription_checked_at"]) ++
  (if "channel_subscription_verified_for" ∈ db.userCols then []
   else [.addUserCol "channel_subscription_verified_for"])

/-- `_migration_0002_add_referral_code`: a guarded `ADD COLUMN`, then the
unconditional backfill, then `CREATE UNIQUE INDEX IF NOT EXISTS`. -/
def stmts_0002 (db : DB) : List Stmt :=
  (if "referral_code" ∈ db.userCols then [] else [.addUserCol "referral_code"]) ++
  [.backfillReferralCodes, .createUqIndex]

/-- `_migration_0003_normalize_referral_codes`: returns immediately when the
`referral_code` column is absent, otherwise runs one `UPDATE`. -/
def stmts_0003 (db : DB) : List Stmt :=
  if "referral_code" ∈ db.userCols then [.normalizeReferralCodes] else []

/-- `_migration_0004_add_terms_acceptance_fields`: three guarded
`ADD COLUMN` statements. -/
def stmts_0004 (db : DB) : List Stmt :=
  (if "terms_accepted" ∈ db.userCols then [] else [.addUserCol "terms_accepted"]) ++
  (if "terms_accepted_at" ∈ db.userCols then [] else [.addUserCol "terms_accepted_at"]) ++
  (if "terms_version" ∈ db.userCols then [] else [.addUserCol "terms_version"])

/-- An upgrade body: inspect the store, build the statement list, execute it. -/
def upgradeFn (f : DB → List Stmt) (db : DB) : DB := execStmts db (f db)

/-- The statement-building functions of the four registry entries, in
declared order. -/
def migStmtFns : List (DB → List Stmt) := [stmts_0001, stmts_0002, stmts_0003, stmts_0004]

/-- The `MIGRATIONS` registry, in its declared order. -/
def MIGRATIONS : List Migration :=
  [⟨"0001_add_channel_subscription_fields",
    "Add columns to track required channel subscription verification",
    fun db => .ok (upgradeFn stmts_0001 db)⟩,
   ⟨"0002_add_referral_code",
    "Store short referral codes for users and backfill existing rows",
    fun db => .ok (upgradeFn stmts_0002 db)⟩,
   ⟨"0003_normalize_referral_codes",
    "Normalize referral codes to uppercase for consistent lookups",
    fun db => .ok (upgradeFn stmts_0003 db)⟩,
   ⟨"0004_add_terms_acceptance_fields",
    "Add columns to track terms of service acceptance (terms_accepted, terms_accepted_at, terms_version)",
    fun db => .ok (upgradeFn stmts_0004 db)⟩]

/-- `_ensure_migrations_table`: `CREATE TABLE IF NOT EXISTS schema_migrations`.
A freshly created table has no rows. -/
def ensure_migrations_table (db : DB) : DB :=
  if db.migTable then db else { db with migTable := true, history := [] }

/-- `SELECT id FROM schema_migrations`. -/
def appliedIds (db : DB) : List String := db.history.map HRow.id

/-- `INSERT INTO schema_migrations (id) VALUES (:revision)`: the primary key
on `id` makes a duplicate insert raise; a fresh insert is stamped with the
current clock. -/
def record (db : DB) (id : String) : Except Exc DB :=
  if id ∈ appliedIds db then
    .error ("duplicate key value violates unique constraint: " ++ id)
  else
    .ok { db with history := db.history ++ [⟨id, db.clock⟩], clock := db.clock + 1 }

/-- One entry of the runner's log. -/
inductive LogEntry where
  | applying (id description : String)
  | failed (id description : String)
  | applied (id : String)
deriving DecidableEq, Repr

/-- Result of a run: final store state, log, and the raised exception, if
any (`none` on success). -/
structure RunOut where
  db : DB
  log : List LogEntry
  err : Option Exc
deriving DecidableEq, Repr

/-- The body of the `with connection.begin_nested():` block: run the upgrade,
then record the revision.  An error from either step aborts the savepoint, so
the caller keeps the state from before the block. -/
def applyOne (db : DB) (m : Migration) : Except Exc DB :=
  match m.upgrade db with
  | .error e => .error e
  | .ok db2 => record db2 m.id

/-- The `for migration in MIGRATIONS:` loop of `run_database_migrations`,
with the applied-revision set loaded before the loop. -/
def runMigs (applied : List String) : DB → List Migration → RunOut
  | db, [] => ⟨db, [], none⟩
  | db, m :: rest =>
    if m.id ∈ applied then runMigs applied db rest
    else
      match applyOne db m with
      | .error e =>
          ⟨db, [.applying m.id m.description, .failed m.id m.description], some e⟩
      | .ok db2 =>
          let out := runMigs applied db2 rest
          ⟨out.db, .applying m.id m.description :: .applied m.id :: out.log, out.err⟩

/-- `run_database_migrations`: ensure the bookkeeping table, load the applied
set, walk the registry. -/
def run_database_migrations (db : DB) : RunOut :=
  let db1 := ensure_migrations_table db
  runMigs (appliedIds db1) db1 MIGRATIONS

/-- Modelled from the spec: `isFullyMigrated(connection) -> bool` is named in
the spec's external interface but no such function exists under `src/`;
following the spec's words, it is true iff every Registry id has a history
row. -/
def isFullyMigrated (db : DB) : Bool :=
  MIGRATIONS.all fun m => (appliedIds db).contains m.id

/-! ## General lemmas about the runner loop -/

/-- A migration's upgrade, when it succeeds, leaves the bookkeeping state
(history rows, clock, table flag) untouched: it only works on business
tables. -/
def PreservesBookkeeping (m : Migration) : Prop :=
  ∀ d d', m.upgrade d = .ok d' →
    d'.history = d.history ∧ d'.clock = d.clock ∧ d'.migTable = d.migTable

/-- A migration's upgrade that never raises and keeps bookkeeping intact. -/
def TotalUpgrade (m : Migration) : Prop :=
  ∀ d, ∃ d', m.upgrade d = .ok d' ∧
    d'.history = d.history ∧ d'.clock = d.clock ∧ d'.migTable = d.migTable

theorem runMigs_append_ok (applied : List String) (xs ys : List Migration) :
    ∀ db, (runMigs applied db xs).err = none →
      runMigs applied db (xs ++ ys) =
        ⟨(runMigs applied (runMigs applied db xs).db ys).db,
         (runMigs applied db xs).log ++ (runMigs applied (runMigs applied db xs).db ys).log,
         (runMigs applied (runMigs applied db xs).db ys).err⟩ := by
  induction xs with
  | nil => intro db _; simp [runMigs]
  | cons m rest ih =>
    intro db hok
    by_cases h : m.id ∈ applied
    · simpa [runMigs, h] using ih db (by simpa [runMigs, h] using hok)
    · cases happ : applyOne db m with
      | error e => simp [runMigs, h, happ] at hok
      | ok db2 =>
        have hok2 : (runMigs applied db2 rest).err = none := by
          simpa [runMigs, h, happ] using hok
        simp [runMigs, h, happ, ih db2 hok2]

theorem runMigs_append_err (applied : List String) (xs ys : List Migration)
    (e : Exc) :
    ∀ db, (runMigs applied db xs).err = some e →
      runMigs applied db (xs ++ ys) = runMigs applied db xs := by
  induction xs with
  | nil => intro db h; simp [runMigs] at h
  | cons m rest ih =>
    intro db herr
    by_cases h : m.id ∈ applied
    · simpa [runMigs, h] using ih db (by simpa [runMigs, h] using herr)
    · cases happ : applyOne db m with
      | error e' => simp [runMigs, h, happ]
      | ok db2 =>
        have h2 : (runMigs applied db2 rest).err = some e := by
          simpa [runMigs, h, happ] using herr
        simp [runMigs, h, happ, ih db2 h2]

/-- Descriptors whose ids are all in the loaded applied set are all skipped:
the loop changes nothing, executes nothing, logs nothing. -/
theorem runMigs_all_applied (applied : List String) :
    ∀ (migs : List Migration) (db : DB),
      (∀ m ∈ migs, m.id ∈ applied) →
      runMigs applied db migs = ⟨db, [], none⟩ := by
  intro migs
  induction migs with
  | nil => intro db _; simp [runMigs]
  | cons m rest ih =>
    intro db hall
    have hm : m.id ∈ applied := hall m (by simp)
    simpa [runMigs, hm] using ih db (fun x hx => hall x (by simp [hx]))

/-- Whatever happens during the loop, the history rows present at entry are
still there, in their original order, and the rows added on top carry ids of
processed descriptors. -/
theorem runMigs_extends (applied : List String) :
    ∀ (migs : List Migration) (db : DB),
      (∀ m ∈ migs, PreservesBookkeeping m) →
      ∃ ext, (runMigs applied db migs).db.history = db.history ++ ext ∧
        ∀ s ∈ ext.map HRow.id, s ∈ migs.map Migration.id := by
  intro migs
  induction migs with
  | nil => intro db _; exact ⟨[], by simp [runMigs], by simp⟩
  | cons m rest ih =>
    intro db hup
    by_cases h : m.id ∈ applied
    · obtain ⟨ext, h1, h2⟩ := ih db (fun x hx => hup x (by simp [hx]))
      exact ⟨ext, by simpa [runMigs, h] using h1, fun s hs => by simp [h2 s hs]⟩
    · cases happ : applyOne db m with
      | error e => exact ⟨[], by simp [runMigs, h, happ], by simp⟩
      | ok db2 =>
        obtain ⟨db3, hu, hist3, _, _⟩ :
            ∃ db3, m.upgrade db = .ok db3 ∧ db3.history = db.history ∧
              db3.clock = db.clock ∧ db3.migTable = db.migTable := by
          unfold applyOne at happ
          cases hu : m.upgrade db with
          | error e => rw [hu] at happ; cases happ
          | ok db3 =>
            rw [hu] at happ
            exact ⟨db3, rfl, hup m (by simp) db db3 hu⟩
        have hrec : record db3 m.id = .ok db2 := by
          unfold applyOne at happ; rw [hu] at happ; exact happ
        have hdb2 : db2.history = db.history ++ [⟨m.id, db3.clock⟩] := by
          unfold record at hrec
          split at hrec
          · cases hrec
          · cases hrec; simp [hist3]
        obtain ⟨ext, h1, h2⟩ := ih db2 (fun x hx => hup x (by simp [hx]))
        refine ⟨⟨m.id, db3.clock⟩ :: ext, ?_, ?_⟩
        · simpa [runMigs, h, happ, hdb2] using h1
        · intro s hs
          rcases (by simpa using hs) with hs | hs
          · simp [hs]
          · simp [h2 s (by simpa using hs)]

/-- Characterization of a successful pass over `migs`: the history gains
exactly one row per descriptor that was not in the loaded applied set, in
declared order, stamped with monotonically increasing timestamps all at or
after the entry clock; rows present at entry are untouched. -/
theorem runMigs_succ_char (applied : List String) :
    ∀ (migs : List Migration) (db : DB),
      (∀ m ∈ migs, PreservesBookkeeping m) →
      (∀ r ∈ db.history, r.applied_at < db.clock) →
      (runMigs applied db migs).err = none →
      ∃ ext,
        (runMigs applied db migs).db.history = db.history ++ ext ∧
        ext.map HRow.id =
          (migs.filter fun m => decide (m.id ∉ applied)).map Migration.id ∧
        (∀ r ∈ ext, db.clock ≤ r.applied_at) ∧
        List.Pairwise (fun a b : HRow => a.applied_at ≤ b.applied_at) ext ∧
        db.clock ≤ (runMigs applied db migs).db.clock ∧
        (∀ r ∈ (runMigs applied db migs).db.history,
          r.applied_at < (runMigs applied db migs).db.clock) ∧
        (runMigs applied db migs).db.migTable = db.migTable := by
  intro migs
  induction migs with
  | nil =>
    intro db _ hclock _
    exact ⟨[], by simp [runMigs], by simp, by simp, by simp, by simp [runMigs],
      by simpa [runMigs] using hclock, by simp [runMigs]⟩
  | cons m rest ih =>
    intro db hup hclock hok
    by_cases h : m.id ∈ applied
    · obtain ⟨ext, h1, h2, h3, h4, h5, h6, h7⟩ :=
        ih db (fun x hx => hup x (by simp [hx])) hclock
          (by simpa [runMigs, h] using hok)
      refine ⟨ext, ?_, ?_, h3, h4, ?_, ?_, ?_⟩
      · simpa [runMigs, h] using h1
      · simpa [h] using h2
      · simpa [runMigs, h] using h5
      · simpa [runMigs, h] using h6
      · simpa [runMigs, h] using h7
    · cases happ : applyOne db m with
      | error e => simp [runMigs, h, happ] at hok
      | ok db2 =>
        obtain ⟨db3, hu, hist3, hclk3, htab3⟩ :
            ∃ db3, m.upgrade db = .ok db3 ∧ db3.history = db.history ∧
              db3.clock = db.clock ∧ db3.migTable = db.migTable := by
          unfold applyOne at happ
          cases hu : m.upgrade db with
          | error e => rw [hu] at happ; cases happ
          | ok db3 =>
            rw [hu] at happ
            exact ⟨db3, rfl, hup m (by simp) db db3 hu⟩
        have hrec : record db3 m.id = .ok db2 := by
          unfold applyOne at happ; rw [hu] at happ; exact happ
        have hdb2 : db2 =
            { db3 with
              history := db.history ++ [⟨m.id, db.clock⟩]
              clock := db.clock + 1 } := by
          unfold record at hrec
          split at hrec
          · cases hrec
          · cases hrec; simp [hist3, hclk3]
        subst hdb2
        have hclock2 : ∀ r ∈ (db.history ++ [(⟨m.id, db.clock⟩ : HRow)]),
            r.applied_at < db.clock + 1 := by
          intro r hr
          simp only [List.mem_append, List.mem_singleton] at hr
          rcases hr with hr | hr
          · have := hclock r hr; omega
          · simp [hr]
        obtain ⟨ext, h1, h2, h3, h4, h5, h6, h7⟩ :=
          ih _ (fun x hx => hup x (by simp [hx]))
            hclock2 (by simpa [runMigs, h, happ] using hok)
        refine ⟨⟨m.id, db.clock⟩ :: ext, ?_, ?_, ?_, ?_, ?_, ?_, ?_⟩
        · simpa [runMigs, h, happ] using h1
        · simp [h, h2]
        · intro r hr
          rcases (by simpa using hr) with hr | hr
          · simp [hr]
          · have := h3 r hr
            simp at this; omega
        · refine List.pairwise_cons.mpr ⟨?_, h4⟩
          intro r hr
          have := h3 r hr
          simp at this ⊢; omega
        · simp only at h5
          have : db.clock ≤ (runMigs applied
              { db3 with
                history := db.history ++ [⟨m.id, db.clock⟩]
                clock := db.clock + 1 } rest).db.clock := by omega
          simpa [runMigs, h, happ] using this
        · simpa [runMigs, h, happ] using h6
        · simpa [runMigs, h, happ] using h7.trans htab3

/-- If every upgrade is total and bookkeeping-preserving, the ids are
pairwise distinct, and no unapplied id already has a history row, the loop
finishes without raising. -/
theorem runMigs_total (applied : List String) :
    ∀ (migs : List Migration) (db : DB),
      (∀ m ∈ migs, TotalUpgrade m) →
      (migs.map Migration.id).Nodup →
      (∀ m ∈ migs, m.id ∉ applied → m.id ∉ appliedIds db) →
      (runMigs applied db migs).err = none := by
  intro migs
  induction migs with
  | nil => intro db _ _ _; simp [runMigs]
  | cons m rest ih =>
    intro db hup hnodup hnew
    have hnodup' : (rest.map Migration.id).Nodup :=
      (List.nodup_cons.mp (by simpa using hnodup)).2
    have hhead : m.id ∉ rest.map Migration.id :=
      (List.nodup_cons.mp (by simpa using hnodup)).1
    by_cases h : m.id ∈ applied
    · have hrest := ih db (fun x hx => hup x (by simp [hx])) hnodup'
        (fun x hx hxa => hnew x (by simp [hx]) hxa)
      simpa [runMigs, h] using hrest
    · obtain ⟨db3, hu, hist3, hclk3, htab3⟩ := hup m (by simp) db
      have hnotin : m.id ∉ appliedIds db3 := by
        have heq : appliedIds db3 = appliedIds db := by
          unfold appliedIds; rw [hist3]
        rw [heq]; exact hnew m (by simp) h
      have hrec : record db3 m.id =
          .ok { db3 with
                history := db3.history ++ [⟨m.id, db3.clock⟩]
                clock := db3.clock + 1 } := by
        unfold record; rw [if_neg hnotin]
      have happ : applyOne db m =
          .ok { db3 with
                history := db3.history ++ [⟨m.id, db3.clock⟩]
                clock := db3.clock + 1 } := by
        unfold applyOne; rw [hu]; exact hrec
      have hnew2 : ∀ x ∈ rest, x.id ∉ applied →
          x.id ∉ appliedIds { db3 with
                history := db3.history ++ [⟨m.id, db3.clock⟩]
                clock := db3.clock + 1 } := by
        intro x hx hxa
        have h1 : x.id ∉ appliedIds db := hnew x (by simp [hx]) hxa
        have h2 : x.id ≠ m.id := by
          intro he
          exact hhead (he ▸ List.mem_map_of_mem Migration.id hx)
        unfold appliedIds at h1 ⊢
        simp only [hist3, List.map_append, List.map_cons, List.map_nil,
          List.mem_append, List.mem_cons, List.not_mem_nil, or_false]
        rintro (hr | hr)
        · exact h1 hr
        · exact h2 hr
      have hrest := ih _ (fun x hx => hup x (by simp [hx])) hnodup' hnew2
      simpa [runMigs, h, happ] using hrest

/-- Exact output of a run that reaches descriptor `m` after a clean pass over
`pre` and fails there: the state is the one from before `m`'s savepoint, the
log ends with the failure entry for `m`, the raw cause is re-raised, and
nothing of `post` is attempted. -/
theorem runMigs_fail_char (applied : List String) (pre post : List Migration)
    (m : Migration) (db : DB) (e : Exc)
    (hpre : (runMigs applied db pre).err = none)
    (hskip : m.id ∉ applied)
    (hfail : applyOne (runMigs applied db pre).db m = .error e) :
    runMigs applied db (pre ++ m :: post) =
      ⟨(runMigs applied db pre).db,
       (runMigs applied db pre).log ++
         [.applying m.id m.description, .failed m.id m.description],
       some e⟩ := by
  rw [runMigs_append_ok applied pre (m :: post) db hpre]
  simp [runMigs, hskip, hfail]

/-! ## Facts about the four concrete upgrade bodies -/

theorem execStmt_book (db : DB) (s : Stmt) :
    (execStmt db s).history = db.history ∧ (execStmt db s).clock = db.clock ∧
      (execStmt db s).migTable = db.migTable := by
  cases s <;> simp only [execStmt] <;> (try split) <;> simp

theorem execStmts_book (l : List Stmt) :
    ∀ db : DB, (execStmts db l).history = db.history ∧
      (execStmts db l).clock = db.clock ∧ (execStmts db l).migTable = db.migTable := by
  induction l with
  | nil => intro db; simp [execStmts]
  | cons s rest ih =>
    intro db
    have h1 := execStmt_book db s
    have h2 := ih (execStmt db s)
    have hfold : execStmts db (s :: rest) = execStmts (execStmt db s) rest := rfl
    rw [hfold]
    exact ⟨h2.1.trans h1.1, (h2.2.1).trans h1.2.1, (h2.2.2).trans h1.2.2⟩

theorem totalUpgrade_preserves {m : Migration} (h : TotalUpgrade m) :
    PreservesBookkeeping m := by
  intro d d' hd
  obtain ⟨d2, hd2, hp⟩ := h d
  rw [hd] at hd2
  cases hd2
  exact hp

/-- Every registry upgrade succeeds on every store state and never touches
the bookkeeping table. -/
theorem MIGRATIONS_total : ∀ m ∈ MIGRATIONS, TotalUpgrade m := by
  intro m hm
  fin_cases hm <;>
    exact fun d => ⟨_, rfl, (execStmts_book _ d).1, (execStmts_book _ d).2.1,
      (execStmts_book _ d).2.2⟩

theorem MIGRATIONS_preserves : ∀ m ∈ MIGRATIONS, PreservesBookkeeping m :=
  fun m hm => totalUpgrade_preserves (MIGRATIONS_total m hm)

theorem MIGRATIONS_ids_nodup : (MIGRATIONS.map Migration.id).Nodup := by
  decide

/-- On success, the history gains exactly one row per descriptor outside the
loaded applied set, in declared order (ids only; no clock accounting). -/
theorem runMigs_succ_hist (applied : List String) :
    ∀ (migs : List Migration) (db : DB),
      (∀ m ∈ migs, PreservesBookkeeping m) →
      (runMigs applied db migs).err = none →
      ∃ ext, (runMigs applied db migs).db.history = db.history ++ ext ∧
        ext.map HRow.id =
          (migs.filter fun m => decide (m.id ∉ applied)).map Migration.id := by
  intro migs
  induction migs with
  | nil => intro db _ _; exact ⟨[], by simp [runMigs], by simp⟩
  | cons m rest ih =>
    intro db hup hok
    by_cases h : m.id ∈ applied
    · obtain ⟨ext, h1, h2⟩ := ih db (fun x hx => hup x (by simp [hx]))
        (by simpa [runMigs, h] using hok)
      exact ⟨ext, by simpa [runMigs, h] using h1, by simpa [h] using h2⟩
    · cases happ : applyOne db m with
      | error e => simp [runMigs, h, happ] at hok
      | ok db2 =>
        obtain ⟨db3, hu, hist3, hclk3, _⟩ :
            ∃ db3, m.upgrade db = .ok db3 ∧ db3.history = db.history ∧
              db3.clock = db.clock ∧ db3.migTable = db.migTable := by
          unfold applyOne at happ
          cases hu : m.upgrade db with
          | error e => rw [hu] at happ; cases happ
          | ok db3 =>
            rw [hu] at happ
            exact ⟨db3, rfl, hup m (by simp) db db3 hu⟩
        have hrec : record db3 m.id = .ok db2 := by
          unfold applyOne at happ; rw [hu] at happ; exact happ
        have hdb2 : db2 =
            { db3 with
              history := db.history ++ [⟨m.id, db.clock⟩]
              clock := db.clock + 1 } := by
          unfold record at hrec
          split at hrec
          · cases hrec
          · cases hrec; simp [hist3, hclk3]
        subst hdb2
        obtain ⟨ext, h1, h2⟩ := ih _ (fun x hx => hup x (by simp [hx]))
          (by simpa [runMigs, h, happ] using hok)
        refine ⟨⟨m.id, db.clock⟩ :: ext, ?_, ?_⟩
        · simpa [runMigs, h, happ] using h1
        · simp [h, h2]

/-- In a duplicate-free list, an element at position `j ≥ k` does not occur
among the first `k` elements. -/
theorem nodup_getElem_not_mem_take {l : List String} (h : l.Nodup)
    (k j : Nat) (hj : j < l.length) (hkj : k ≤ j) : l[j] ∉ l.take k := by
  intro hmem
  have hdisj : List.Disjoint (l.take k) (l.drop k) := by
    have := h
    rw [← List.take_append_drop k l] at this
    exact List.disjoint_of_nodup_append this
  have hjk : j - k < (l.drop k).length := by
    simp [List.length_drop]; omega
  have hget : (l.drop k)[j - k] = l[j] := by
    rw [List.getElem_drop]
    congr 1
    omega
  exact hdisj hmem (hget ▸ List.getElem_mem hjk)

/-- A fresh, empty store. -/
def dbFresh : DB := ⟨[], [], false, false, [], 0, 0⟩

/-- A descriptor whose upgrade always raises: used to exercise the failure
path at a concrete input. -/
def failMig : Migration := ⟨"bad_mig", "always fails", fun _ => .error "boom"⟩

/-- Claim C1: a descriptor outside the loaded applied set runs its upgrade
and its history insert inside one savepoint; when either raises, the run's
final state is exactly the state from before that savepoint (its schema work
and history row are gone, earlier descriptors' rows remain), the failure is
logged with the descriptor's id and description, the exception is re-raised,
and no later descriptor is attempted. -/
theorem claim_C1_atomic_failure (pre post : List Migration) (m : Migration)
    (db : DB) (e : Exc)
    (hup : ∀ x ∈ pre, PreservesBookkeeping x)
    (hpre : (runMigs (appliedIds db) db pre).err = none)
    (hskip : m.id ∉ appliedIds db)
    (hnotpre : m.id ∉ pre.map Migration.id)
    (hfail : applyOne (runMigs (appliedIds db) db pre).db m = .error e) :
    runMigs (appliedIds db) db (pre ++ m :: post) =
      ⟨(runMigs (appliedIds db) db pre).db,
       (runMigs (appliedIds db) db pre).log ++
         [.applying m.id m.description, .failed m.id m.description],
       some e⟩ ∧
    m.id ∉ appliedIds (runMigs (appliedIds db) db (pre ++ m :: post)).db ∧
    ∀ s ∈ appliedIds (runMigs (appliedIds db) db pre).db,
      s ∈ appliedIds (runMigs (appliedIds db) db (pre ++ m :: post)).db := by
  have hout := runMigs_fail_char (appliedIds db) pre post m db e hpre hskip hfail
  have hdbeq : (runMigs (appliedIds db) db (pre ++ m :: post)).db =
      (runMigs (appliedIds db) db pre).db := by rw [hout]
  obtain ⟨ext, h1, h2⟩ := runMigs_extends (appliedIds db) pre db hup
  have h1' : appliedIds (runMigs (appliedIds db) db pre).db =
      appliedIds db ++ ext.map HRow.id := by
    show (runMigs (appliedIds db) db pre).db.history.map HRow.id =
      db.history.map HRow.id ++ ext.map HRow.id
    rw [h1, List.map_append]
  refine ⟨hout, ?_, ?_⟩
  · rw [hdbeq, h1']
    simp only [List.mem_append]
    rintro (hm | hm)
    · exact hskip hm
    · exact hnotpre (h2 _ hm)
  · intro s hs
    rw [hdbeq]
    exact hs

theorem claim_C1_atomic_failure_witness :
    failMig.id ∉ appliedIds dbFresh ∧
    runMigs (appliedIds dbFresh) dbFresh ([] ++ failMig :: []) =
      ⟨dbFresh, [.applying failMig.id failMig.description,
                 .failed failMig.id failMig.description], some "boom"⟩ ∧
    failMig.id ∉ appliedIds (runMigs (appliedIds dbFresh) dbFresh ([] ++ failMig :: [])).db := by
  have h := claim_C1_atomic_failure [] [] failMig dbFresh "boom"
    (by simp) rfl (by decide) (by simp) rfl
  exact ⟨by decide, by simpa [runMigs] using h.1, h.2.1⟩

/-- Claim C2: when the descriptor at position `k` fails, the post-run history
is exactly the pre-run history followed by the ids of the descriptors at
positions `< k` that were unapplied at run start, in order; the id at
position `k` and all ids at later positions are absent. -/
theorem claim_C2_prefix_invariant (migs : List Migration) (db : DB) (k : Nat)
    (e : Exc) (hk : k < migs.length)
    (hup : ∀ x ∈ migs, PreservesBookkeeping x)
    (hnodup : (migs.map Migration.id).Nodup)
    (hpre : (runMigs (appliedIds db) db (migs.take k)).err = none)
    (hfail : applyOne (runMigs (appliedIds db) db (migs.take k)).db
      migs[k] = .error e)
    (hlater : ∀ j (hj : j < migs.length), k ≤ j →
      migs[j].id ∉ appliedIds db) :
    appliedIds (runMigs (appliedIds db) db migs).db =
      appliedIds db ++
        ((migs.take k).filter fun x =>
          decide (x.id ∉ appliedIds db)).map Migration.id ∧
    ∀ j (hj : j < migs.length), k ≤ j →
      migs[j].id ∉ appliedIds (runMigs (appliedIds db) db migs).db := by
  have hsplit : migs = migs.take k ++ migs[k] :: migs.drop (k + 1) := by
    conv_lhs => rw [← List.take_append_drop k migs]
    congr 1
    exact List.drop_eq_getElem_cons hk
  have hskip : migs[k].id ∉ appliedIds db := hlater k hk le_rfl
  have hout := runMigs_fail_char (appliedIds db) (migs.take k) (migs.drop (k + 1))
    migs[k] db e hpre hskip hfail
  obtain ⟨ext, h1, h2⟩ := runMigs_succ_hist (appliedIds db) (migs.take k) db
    (fun x hx => hup x (List.mem_of_mem_take hx)) hpre
  have houtdb : (runMigs (appliedIds db) db migs).db =
      (runMigs (appliedIds db) db (migs.take k)).db := by
    conv_lhs => rw [hsplit]
    rw [hout]
  have happlied : appliedIds (runMigs (appliedIds db) db migs).db =
      appliedIds db ++
        ((migs.take k).filter fun x =>
          decide (x.id ∉ appliedIds db)).map Migration.id := by
    rw [houtdb]
    show (runMigs (appliedIds db) db (migs.take k)).db.history.map HRow.id =
      appliedIds db ++
        ((migs.take k).filter fun x =>
          decide (x.id ∉ appliedIds db)).map Migration.id
    rw [h1, List.map_append, h2]
    rfl
  refine ⟨happlied, ?_⟩
  intro j hj hkj
  rw [happlied]
  simp only [List.mem_append]
  rintro (hm | hm)
  · exact hlater j hj hkj hm
  · have hmem : migs[j].id ∈ (migs.take k).map Migration.id := by
      rcases List.mem_map.mp hm with ⟨x, hx, hxe⟩
      exact hxe ▸ List.mem_map_of_mem Migration.id (List.mem_of_mem_filter hx)
    have hj2 : j < (migs.map Migration.id).length := by simpa using hj
    have hnm : (migs.map Migration.id)[j] ∉ (migs.map Migration.id).take k :=
      nodup_getElem_not_mem_take hnodup k j hj2 hkj
    rw [← List.map_take] at hnm
    exact hnm (by simpa [List.getElem_map] using hmem)

theorem claim_C2_prefix_invariant_witness :
    (0 : Nat) < [failMig].length ∧
    appliedIds (runMigs (appliedIds dbFresh) dbFresh [failMig]).db = [] ∧
    failMig.id ∉ appliedIds (runMigs (appliedIds dbFresh) dbFresh [failMig]).db := by
  have h := claim_C2_prefix_invariant [failMig] dbFresh 0 "boom" (by decide)
    (by intro x hx d d' hd
        obtain rfl := List.mem_singleton.mp hx
        simp [failMig] at hd)
    (by decide) rfl rfl
    (by intro j hj _
        cases j with
        | zero =>
          show failMig.id ∉ appliedIds dbFresh
          decide
        | succ n => simp at hj)
  exact ⟨by decide, by simpa using h.1, by simpa using h.2 0 (by decide) le_rfl⟩

/-- Claim C3, counterexample: the raised value is the raw cause of the
failure, unchanged; two registries whose failing descriptors differ in id and
description produce the very same raised value, so the raised value carries
neither the id nor the description (they are only logged). -/
theorem claim_C3_counterexample :
    (runMigs [] dbFresh [⟨"0001_a", "first", fun _ => .error "boom"⟩]).err =
      (runMigs [] dbFresh [⟨"0002_b", "second", fun _ => .error "boom"⟩]).err ∧
    (runMigs [] dbFresh [⟨"0001_a", "first", fun _ => .error "boom"⟩]).err =
      some "boom" ∧
    ("0001_a" : String) ≠ "0002_b" ∧ ("first" : String) ≠ "second" := by
  refine ⟨rfl, rfl, by decide, by decide⟩

/-- Claim C3, amended: whenever a run fails, the failure surfaces to the
caller as the re-raised underlying exception (the raw cause); the failing
descriptor's id and description are recorded in the error log, not attached
to the raised value; no error is swallowed inside the runner. -/
theorem claim_C3_error_surfacing (applied : List String) (pre post : List Migration)
    (m : Migration) (db : DB) (e : Exc)
    (hpre : (runMigs applied db pre).err = none)
    (hskip : m.id ∉ applied)
    (hfail : applyOne (runMigs applied db pre).db m = .error e) :
    (runMigs applied db (pre ++ m :: post)).err = some e ∧
    LogEntry.failed m.id m.description ∈ (runMigs applied db (pre ++ m :: post)).log := by
  have hout := runMigs_fail_char applied pre post m db e hpre hskip hfail
  rw [hout]
  exact ⟨rfl, by simp⟩

theorem claim_C3_error_surfacing_witness :
    (runMigs [] dbFresh ([] ++ failMig :: [])).err = some "boom" ∧
    LogEntry.failed failMig.id failMig.description ∈
      (runMigs [] dbFresh ([] ++ failMig :: [])).log :=
  claim_C3_error_surfacing [] [] [] failMig dbFresh "boom" rfl (by decide) rfl

/-- Claim C6: `record` appends exactly one row carrying the given id; an id
already present makes the insert raise (primary-key violation) instead of
silently duplicating; in particular recording twice always fails, and a
duplicate-free history stays duplicate-free. -/
theorem claim_C6_record_unique (db : DB) (id : String) :
    (id ∉ appliedIds db →
      record db id = .ok
        { db with history := db.history ++ [⟨id, db.clock⟩], clock := db.clock + 1 }) ∧
    (id ∈ appliedIds db → ∃ e, record db id = .error e) ∧
    (∀ db', record db id = .ok db' → ∃ e, record db' id = .error e) ∧
    (∀ db', record db id = .ok db' → (appliedIds db).Nodup → (appliedIds db').Nodup) := by
  refine ⟨?_, ?_, ?_, ?_⟩
  · intro h; unfold record; rw [if_neg h]
  · intro h; unfold record; rw [if_pos h]; exact ⟨_, rfl⟩
  · intro db' hok
    have hnot : id ∉ appliedIds db := by
      unfold record at hok
      by_contra hc
      rw [if_pos hc] at hok
      cases hok
    unfold record at hok
    rw [if_neg hnot] at hok
    cases hok
    unfold record
    rw [if_pos (by unfold appliedIds; simp)]
    exact ⟨_, rfl⟩
  · intro db' hok hnd
    have hnot : id ∉ appliedIds db := by
      unfold record at hok
      by_contra hc
      rw [if_pos hc] at hok
      cases hok
    unfold record at hok
    rw [if_neg hnot] at hok
    cases hok
    have hforall : ∀ x ∈ db.history, ¬x.id = id := by
      intro x hx he
      exact hnot (he ▸ List.mem_map_of_mem HRow.id hx)
    simpa [appliedIds, List.nodup_append] using ⟨hnd, hforall⟩

theorem claim_C6_record_unique_witness :
    record dbFresh "0001_x" =
      .ok { dbFresh with history := [⟨"0001_x", 0⟩], clock := 1 } ∧
    ∃ e, record { dbFresh with history := [⟨"0001_x", 0⟩], clock := 1 } "0001_x" =
      .error e := by
  refine ⟨?_, ?_⟩
  · have h := (claim_C6_record_unique dbFresh "0001_x").1 (by decide)
    simpa [dbFresh] using h
  · exact (claim_C6_record_unique dbFresh "0001_x").2.2.1 _
      ((claim_C6_record_unique dbFresh "0001_x").1 (by decide))

/-- Claim C9: a run only ever appends history rows — the rows present after
`_ensure_migrations_table` are still there, unchanged and in order, and every
appended id is the id of some Registry entry; hence when the pre-run ids were
a subset of the Registry ids, the post-run ids still are. -/
theorem claim_C9_subset_append_only (db : DB) :
    ∃ ext, (run_database_migrations db).db.history =
        (ensure_migrations_table db).history ++ ext ∧
      (∀ s ∈ ext.map HRow.id, s ∈ MIGRATIONS.map Migration.id) ∧
      ((∀ s ∈ appliedIds (ensure_migrations_table db), s ∈ MIGRATIONS.map Migration.id) →
        ∀ s ∈ appliedIds (run_database_migrations db).db,
          s ∈ MIGRATIONS.map Migration.id) := by
  obtain ⟨ext, h1, h2⟩ := runMigs_extends (appliedIds (ensure_migrations_table db))
    MIGRATIONS (ensure_migrations_table db) MIGRATIONS_preserves
  refine ⟨ext, h1, h2, ?_⟩
  intro hsub s hs
  unfold appliedIds at hs
  rw [show (run_database_migrations db).db =
    (runMigs (appliedIds (ensure_migrations_table db))
      (ensure_migrations_table db) MIGRATIONS).db from rfl, h1] at hs
  rcases List.mem_map.mp hs with ⟨r, hr, hre⟩
  rcases List.mem_append.mp hr with hr | hr
  · exact hsub s (hre ▸ List.mem_map_of_mem HRow.id hr)
  · exact h2 s (hre ▸ List.mem_map_of_mem HRow.id hr)

theorem claim_C9_subset_append_only_witness :
    ∃ ext, (run_database_migrations dbFresh).db.history =
        (ensure_migrations_table dbFresh).history ++ ext ∧
      (∀ s ∈ ext.map HRow.id, s ∈ MIGRATIONS.map Migration.id) ∧
      ((∀ s ∈ appliedIds (ensure_migrations_table dbFresh), s ∈ MIGRATIONS.map Migration.id) →
        ∀ s ∈ appliedIds (run_database_migrations dbFresh).db,
          s ∈ MIGRATIONS.map Migration.id) :=
  claim_C9_subset_append_only dbFresh

/-- Claim C4: a descriptor whose id is in the loaded applied set is skipped —
the loop behaves as if it were not there (no statements, no writes, no log);
and running the full registry on a fresh store succeeds leaving exactly the
registry ids in history, after which a second run changes nothing, logs
nothing and succeeds. -/
theorem claim_C4_skip_idempotent :
    (∀ (applied : List String) (db : DB) (m : Migration) (rest : List Migration),
      m.id ∈ applied → runMigs applied db (m :: rest) = runMigs applied db rest) ∧
    ∀ db : DB, db.migTable = false →
      (run_database_migrations db).err = none ∧
      appliedIds (run_database_migrations db).db = MIGRATIONS.map Migration.id ∧
      run_database_migrations (run_database_migrations db).db =
        ⟨(run_database_migrations db).db, [], none⟩ := by
  constructor
  · intro applied db m rest h
    simp [runMigs, h]
  · intro db hdb
    have hdb1 : ensure_migrations_table db =
        { db with migTable := true, history := [] } := by
      simp [ensure_migrations_table, hdb]
    have hrun : run_database_migrations db =
        runMigs [] { db with migTable := true, history := [] } MIGRATIONS := by
      unfold run_database_migrations
      rw [hdb1]
      rfl
    have herr : (runMigs [] { db with migTable := true, history := [] }
        MIGRATIONS).err = none := by
      apply runMigs_total [] MIGRATIONS _ MIGRATIONS_total MIGRATIONS_ids_nodup
      intro m _ _
      show m.id ∉ appliedIds { db with migTable := true, history := [] }
      simp [appliedIds]
    obtain ⟨ext, h1, h2, _, _, _, _, h7⟩ :=
      runMigs_succ_char [] MIGRATIONS { db with migTable := true, history := [] }
        MIGRATIONS_preserves (by simp) herr
    have hext : ext.map HRow.id = MIGRATIONS.map Migration.id := by
      rw [h2]
      simp
    have happl : appliedIds (run_database_migrations db).db =
        MIGRATIONS.map Migration.id := by
      rw [hrun]
      show (runMigs [] { db with migTable := true, history := [] }
        MIGRATIONS).db.history.map HRow.id = MIGRATIONS.map Migration.id
      rw [h1]
      simpa using hext
    refine ⟨by rw [hrun]; exact herr, happl, ?_⟩
    have htab : (run_database_migrations db).db.migTable = true := by
      rw [hrun]; rw [h7]
    have hens : ensure_migrations_table (run_database_migrations db).db =
        (run_database_migrations db).db := by
      unfold ensure_migrations_table
      rw [if_pos htab]
    show runMigs (appliedIds (ensure_migrations_table (run_database_migrations db).db))
      (ensure_migrations_table (run_database_migrations db).db) MIGRATIONS =
      ⟨(run_database_migrations db).db, [], none⟩
    rw [hens]
    apply runMigs_all_applied
    intro m hm
    rw [happl]
    exact List.mem_map_of_mem Migration.id hm

theorem claim_C4_skip_idempotent_witness :
    dbFresh.migTable = false ∧
    (run_database_migrations dbFresh).err = none ∧
    appliedIds (run_database_migrations dbFresh).db = MIGRATIONS.map Migration.id ∧
    run_database_migrations (run_database_migrations dbFresh).db =
      ⟨(run_database_migrations dbFresh).db, [], none⟩ :=
  ⟨rfl, claim_C4_skip_idempotent.2 dbFresh rfl⟩

/-- Claim C8 (spec-modelled engine operation): `isFullyMigrated` is true
exactly when every Registry id has a history row. -/
theorem claim_C8_isFullyMigrated (db : DB) :
    isFullyMigrated db = true ↔
      ∀ m ∈ MIGRATIONS, m.id ∈ appliedIds db := by
  unfold isFullyMigrated
  simp [List.all_eq_true]

/-- Claim C10: when the `users` table has no `referral_code` column,
migration `0003_normalize_referral_codes` builds no statement at all and its
upgrade returns the store unchanged, successfully. -/
theorem claim_C10_normalize_guard (db : DB)
    (h : "referral_code" ∉ db.userCols) :
    stmts_0003 db = [] ∧
    (MIGRATIONS.get ⟨2, by decide⟩).upgrade db = .ok db := by
  have hs : stmts_0003 db = [] := by
    unfold stmts_0003
    rw [if_neg h]
  refine ⟨hs, ?_⟩
  show Except.ok (upgradeFn stmts_0003 db) = Except.ok db
  unfold upgradeFn
  rw [hs]
  rfl

theorem claim_C10_normalize_guard_witness :
    ("referral_code" ∉ dbFresh.userCols) ∧
    stmts_0003 dbFresh = [] ∧
    (MIGRATIONS.get ⟨2, by decide⟩).upgrade dbFresh = .ok dbFresh :=
  ⟨by decide, claim_C10_normalize_guard dbFresh (by decide)⟩

/-! ## Idempotence of the upgrade bodies (claim C7) -/

theorem char_toUpper_toNat (c : Char) (h : c.toNat ≥ 97 ∧ c.toNat ≤ 122) :
    (Char.toUpper c).toNat = c.toNat - 32 := by
  unfold Char.toUpper
  simp only
  rw [if_pos h]
  have hv : (c.toNat - 32).isValidChar := Or.inl (by omega)
  rw [Char.ofNat, dif_pos hv]
  rfl

theorem char_toUpper_fix (c : Char) (h : ¬(c.toNat ≥ 97 ∧ c.toNat ≤ 122)) :
    Char.toUpper c = c := by
  unfold Char.toUpper
  simp only
  rw [if_neg h]

theorem upChar_idem (c : Char) : upChar (upChar c) = upChar c := by
  unfold upChar
  by_cases h : c.toNat ≥ 97 ∧ c.toNat ≤ 122
  · apply char_toUpper_fix
    rw [char_toUpper_toNat c h]
    omega
  · simp only [char_toUpper_fix c h]

theorem map_upChar_idem (l : List Char) :
    (l.map upChar).map upChar = l.map upChar := by
  induction l with
  | nil => rfl
  | cons c rest ih => simp [ih, upChar_idem]

theorem sqlUpper_idem (s : String) : sqlUpper (sqlUpper s) = sqlUpper s := by
  show String.mk ((s.data.map upChar).map upChar) = String.mk (s.data.map upChar)
  exact congrArg String.mk (map_upChar_idem s.data)

theorem genCode_ne_empty (uid rng : Nat) : genCode uid rng ≠ "" := by
  intro h
  have hl := congrArg String.length h
  simp [genCode, String.length_append] at hl
  exact absurd hl.1.1.1 (by decide)

/-- The backfill leaves every row with a code no later `WHERE` clause
catches again. -/
theorem needsCode_fillRow (rng : Nat) (r : URow) :
    needsCode (fillRow rng r) = false := by
  unfold fillRow
  cases hb : needsCode r with
  | true => simp [needsCode, genCode_ne_empty]
  | false => simpa using hb

/-- After a backfill, no row of `users` is in need of a referral code. -/
theorem backfill_all_fixed (db : DB) :
    ∀ r ∈ (execStmt db .backfillReferralCodes).users, needsCode r = false := by
  intro r hr
  simp only [execStmt] at hr
  split at hr
  · rcases List.mem_map.mp hr with ⟨r0, _, hre⟩
    exact hre ▸ needsCode_fillRow db.rng r0
  · rename_i hany
    rw [Bool.not_eq_true, List.any_eq_false] at hany
    simpa using hany r hr

/-- A backfill over a table with no row in need of a code is a no-op. -/
theorem backfill_fix (db : DB) (h : ∀ r ∈ db.users, needsCode r = false) :
    execStmt db .backfillReferralCodes = db := by
  have hany : db.users.any needsCode = false := by
    rw [List.any_eq_false]
    intro x hx
    simp [h x hx]
  simp [execStmt, hany]

theorem normRow_idem (r : URow) : normRow (normRow r) = normRow r := by
  cases hc : r.referral_code with
  | none => simp [normRow, hc]
  | some s =>
    by_cases hu : sqlUpper s ≠ s
    · simp [normRow, hc, hu, sqlUpper_idem]
    · simp [normRow, hc, hu]

theorem map_normRow_idem (l : List URow) :
    (l.map normRow).map normRow = l.map normRow := by
  induction l with
  | nil => rfl
  | cons r rest ih => simp [ih, normRow_idem]

/-- Normalizing referral codes twice is the same as normalizing once. -/
theorem normalize_fix (db : DB) :
    execStmt (execStmt db .normalizeReferralCodes) .normalizeReferralCodes =
      execStmt db .normalizeReferralCodes := by
  simp [execStmt, normRow_idem]

theorem stmts_idem_0003 (db : DB) (k : Nat) :
    upgradeFn stmts_0003 (execStmts db ((stmts_0003 db).take k)) =
      upgradeFn stmts_0003 db := by
  by_cases hm : "referral_code" ∈ db.userCols
  · have hs : stmts_0003 db = [.normalizeReferralCodes] := by
      unfold stmts_0003; rw [if_pos hm]
    rcases k with _ | k
    · simp [hs, execStmts]
    · have htake : (stmts_0003 db).take (k + 1) = [.normalizeReferralCodes] := by
        rw [hs]; simp
      rw [htake]
      have hcols : (execStmts db [Stmt.normalizeReferralCodes]).userCols = db.userCols := by
        simp [execStmts, execStmt]
      unfold upgradeFn
      have hs2 : stmts_0003 (execStmts db [Stmt.normalizeReferralCodes]) =
          [.normalizeReferralCodes] := by
        unfold stmts_0003; rw [hcols, if_pos hm]
      rw [hs2, hs]
      show execStmt (execStmt db .normalizeReferralCodes) .normalizeReferralCodes =
        execStmt db .normalizeReferralCodes
      exact normalize_fix db
  · have hs : stmts_0003 db = [] := by
      unfold stmts_0003; rw [if_neg hm]
    simp [hs, upgradeFn, execStmts]

theorem backfill_cols (d : DB) :
    (execStmt d .backfillReferralCodes).userCols = d.userCols := by
  simp only [execStmt]
  split <;> rfl

theorem uq_cols (d : DB) : (execStmt d .createUqIndex).userCols = d.userCols := rfl

theorem uq_users (d : DB) : (execStmt d .createUqIndex).users = d.users := rfl

theorem uq_idem (d : DB) :
    execStmt (execStmt d .createUqIndex) .createUqIndex =
      execStmt d .createUqIndex := rfl

theorem backfill_after_backfill (d : DB) :
    execStmt (execStmt d .backfillReferralCodes) .backfillReferralCodes =
      execStmt d .backfillReferralCodes :=
  backfill_fix _ (backfill_all_fixed d)

theorem backfill_after_uq (d : DB) :
    execStmt (execStmt (execStmt d .backfillReferralCodes) .createUqIndex)
        .backfillReferralCodes =
      execStmt (execStmt d .backfillReferralCodes) .createUqIndex :=
  backfill_fix _ (fun r hr => backfill_all_fixed d r (by simpa [uq_users] using hr))

theorem stmts_0002_of_mem (X : DB) (h : "referral_code" ∈ X.userCols) :
    stmts_0002 X = [.backfillReferralCodes, .createUqIndex] := by
  simp [stmts_0002, h]

/-- Partial re-execution safety for a body of three guarded `ADD COLUMN`
statements over pairwise distinct column names. -/
theorem addCols3_idem (c1 c2 c3 : String) (h12 : c1 ≠ c2) (h13 : c1 ≠ c3)
    (h23 : c2 ≠ c3) (f : DB → List Stmt)
    (hf : ∀ db : DB, f db =
      (if c1 ∈ db.userCols then [] else [.addUserCol c1]) ++
      (if c2 ∈ db.userCols then [] else [.addUserCol c2]) ++
      (if c3 ∈ db.userCols then [] else [.addUserCol c3]))
    (db : DB) (k : Nat) :
    upgradeFn f (execStmts db ((f db).take k)) = upgradeFn f db := by
  by_cases h1 : c1 ∈ db.userCols <;> by_cases h2 : c2 ∈ db.userCols <;>
    by_cases h3 : c3 ∈ db.userCols <;>
    rcases k with _ | _ | _ | _ | k <;>
    simp [upgradeFn, execStmts, execStmt, hf, h1, h2, h3,
      Ne.symm h12, Ne.symm h13, Ne.symm h23, List.mem_append]

theorem stmts_idem_0001 : ∀ (db : DB) (k : Nat),
    upgradeFn stmts_0001 (execStmts db ((stmts_0001 db).take k)) =
      upgradeFn stmts_0001 db :=
  addCols3_idem "channel_subscription_verified" "channel_subscription_checked_at"
    "channel_subscription_verified_for" (by decide) (by decide) (by decide)
    stmts_0001 (fun _ => rfl)

theorem stmts_idem_0004 : ∀ (db : DB) (k : Nat),
    upgradeFn stmts_0004 (execStmts db ((stmts_0004 db).take k)) =
      upgradeFn stmts_0004 db :=
  addCols3_idem "terms_accepted" "terms_accepted_at" "terms_version"
    (by decide) (by decide) (by decide) stmts_0004 (fun _ => rfl)

theorem stmts_idem_0002 : ∀ (db : DB) (k : Nat),
    upgradeFn stmts_0002 (execStmts db ((stmts_0002 db).take k)) =
      upgradeFn stmts_0002 db := by
  intro db k
  by_cases hm : "referral_code" ∈ db.userCols
  · have hs : stmts_0002 db = [.backfillReferralCodes, .createUqIndex] :=
      stmts_0002_of_mem db hm
    unfold upgradeFn
    rw [hs]
    match k with
    | 0 =>
      simp only [List.take_zero, execStmts, List.foldl_nil]
      rw [hs]
    | 1 =>
      simp only [List.take_succ_cons, List.take_zero, execStmts,
        List.foldl_cons, List.foldl_nil]
      rw [stmts_0002_of_mem _ (by rw [backfill_cols]; exact hm)]
      simp only [List.foldl_cons, List.foldl_nil]
      rw [backfill_after_backfill]
    | n + 2 =>
      simp only [List.take_succ_cons, List.take_nil, execStmts,
        List.foldl_cons, List.foldl_nil]
      rw [stmts_0002_of_mem _ (by rw [uq_cols, backfill_cols]; exact hm)]
      simp only [List.foldl_cons, List.foldl_nil]
      rw [backfill_after_uq, uq_idem]
  · have hs : stmts_0002 db =
        [.addUserCol "referral_code", .backfillReferralCodes, .createUqIndex] := by
      simp [stmts_0002, hm]
    have hmem : "referral_code" ∈
        (execStmt db (.addUserCol "referral_code")).userCols := by
      simp [execStmt]
    unfold upgradeFn
    rw [hs]
    match k with
    | 0 =>
      simp only [List.take_zero, execStmts, List.foldl_nil]
      rw [hs]
    | 1 =>
      simp only [List.take_succ_cons, List.take_zero, execStmts,
        List.foldl_cons, List.foldl_nil]
      rw [stmts_0002_of_mem _ hmem]
      simp only [List.foldl_cons, List.foldl_nil]
    | 2 =>
      simp only [List.take_succ_cons, List.take_zero, execStmts,
        List.foldl_cons, List.foldl_nil]
      rw [stmts_0002_of_mem _ (by rw [backfill_cols]; exact hmem)]
      simp only [List.foldl_cons, List.foldl_nil]
      rw [backfill_after_backfill]
    | n + 3 =>
      simp only [List.take_succ_cons, List.take_nil, execStmts,
        List.foldl_cons, List.foldl_nil]
      rw [stmts_0002_of_mem _ (by rw [uq_cols, backfill_cols]; exact hmem)]
      simp only [List.foldl_cons, List.foldl_nil]
      rw [backfill_after_uq, uq_idem]

/-- Claim C7: the four registry upgrade bodies are exactly the guarded
statement lists of `migStmtFns`, and each is safe to re-run from any partial
execution of itself: running the full body after any prefix of its statements
has already executed yields the same store as one clean run. -/
theorem claim_C7_idempotent_upgrades :
    MIGRATIONS.map Migration.upgrade =
      migStmtFns.map (fun f => fun db => Except.ok (upgradeFn f db)) ∧
    ∀ f ∈ migStmtFns, ∀ (db : DB) (k : Nat),
      upgradeFn f (execStmts db ((f db).take k)) = upgradeFn f db := by
  refine ⟨rfl, ?_⟩
  intro f hf
  fin_cases hf
  · exact stmts_idem_0001
  · exact stmts_idem_0002
  · exact stmts_idem_0003
  · exact stmts_idem_0004

/-! ## Timestamp ordering (claim C5) -/

/-- The `applied_at` timestamp of the history row for `id`, if present. -/
def tsOf (db : DB) (id : String) : Option Nat :=
  (db.history.find? fun r => r.id == id).map HRow.applied_at

/-- In a history whose ids are duplicate-free, looking up the id of the row
at position `i` finds exactly that row. -/
theorem find_at_index : ∀ (hs : List HRow), (hs.map HRow.id).Nodup →
    ∀ i (hi : i < hs.length),
      (hs.find? fun r => r.id == (hs.get ⟨i, hi⟩).id) = some (hs.get ⟨i, hi⟩) := by
  intro hs
  induction hs with
  | nil => intro _ i hi; exact absurd hi (by simp)
  | cons a t ih =>
    intro hnd i hi
    have hhead : a.id ∉ t.map HRow.id := (List.nodup_cons.mp (by simpa using hnd)).1
    cases i with
    | zero =>
      show List.find? (fun r => r.id == a.id) (a :: t) = some a
      simp [List.find?]
    | succ n =>
      have hn : n < t.length := by simpa using hi
      have hne : ¬(a.id == (t.get ⟨n, hn⟩).id) = true := by
        simp only [beq_iff_eq]
        intro he
        exact hhead (he ▸ List.mem_map_of_mem HRow.id (t.get_mem n hn))
      have hget : (a :: t).get ⟨n + 1, hi⟩ = t.get ⟨n, hn⟩ := rfl
      have hstep : List.find? (fun r => r.id == (t.get ⟨n, hn⟩).id) (a :: t) =
          List.find? (fun r => r.id == (t.get ⟨n, hn⟩).id) t :=
        List.find?_cons_of_neg t hne
      rw [hget, hstep]
      exact ih (List.nodup_cons.mp (by simpa using hnd)).2 n hn

/-- Filtering a list by "id not among the ids of its own prefix" keeps
exactly the remainder, when ids are duplicate-free. -/
theorem filter_append_split (T D : List Migration)
    (hnd : ((T ++ D).map Migration.id).Nodup) :
    ((T ++ D).filter fun m => decide (m.id ∉ T.map Migration.id)) = D := by
  rw [List.filter_append]
  have hd : List.Disjoint (T.map Migration.id) (D.map Migration.id) := by
    rw [List.map_append] at hnd
    exact List.disjoint_of_nodup_append hnd
  have h1 : (T.filter fun m => decide (m.id ∉ T.map Migration.id)) = [] := by
    rw [List.filter_eq_nil_iff]
    intro a ha
    simp [List.mem_map_of_mem Migration.id ha]
  have h2 : (D.filter fun m => decide (m.id ∉ T.map Migration.id)) = D := by
    rw [List.filter_eq_self]
    intro a ha
    simp only [decide_eq_true_eq]
    intro hmem
    exact hd hmem (List.mem_map_of_mem Migration.id ha)
  rw [h1, h2]
  rfl

/-- Claim C5: the runner walks the registry in declared order — on a
successful run over a store whose applied set is the prefix of the first `jj`
registry ids (with coherent timestamps), the new history rows are exactly the
remaining registry ids in declared order, and the `applied_at` timestamps are
monotone along registry positions: `i < j` implies `ts(i) ≤ ts(j)`. -/
theorem claim_C5_order_timestamps (migs : List Migration) (db : DB) (jj : Nat)
    (hup : ∀ x ∈ migs, PreservesBookkeeping x)
    (hnodup : (migs.map Migration.id).Nodup)
    (hpre : db.history.map HRow.id = (migs.take jj).map Migration.id)
    (hpair : List.Pairwise (fun a b : HRow => a.applied_at ≤ b.applied_at) db.history)
    (hclock : ∀ r ∈ db.history, r.applied_at < db.clock)
    (hok : (runMigs (appliedIds db) db migs).err = none) :
    (∃ ext, (runMigs (appliedIds db) db migs).db.history = db.history ++ ext ∧
      ext.map HRow.id = (migs.drop jj).map Migration.id) ∧
    ∀ i j (hi : i < migs.length) (hj : j < migs.length), i < j →
      ∀ ti tj,
        tsOf (runMigs (appliedIds db) db migs).db migs[i].id = some ti →
        tsOf (runMigs (appliedIds db) db migs).db migs[j].id = some tj →
        ti ≤ tj := by
  obtain ⟨ext, h1, h2, h3, h4, _, _, _⟩ :=
    runMigs_succ_char (appliedIds db) migs db hup hclock hok
  have happ : appliedIds db = (migs.take jj).map Migration.id := hpre
  have hext : ext.map HRow.id = (migs.drop jj).map Migration.id := by
    have hfs := filter_append_split (migs.take jj) (migs.drop jj)
      (by rw [List.take_append_drop]; exact hnodup)
    rw [List.take_append_drop] at hfs
    rw [h2, happ, hfs]
  refine ⟨⟨ext, h1, hext⟩, ?_⟩
  have hidfull : ((runMigs (appliedIds db) db migs).db.history).map HRow.id =
      migs.map Migration.id := by
    rw [h1, List.map_append, hpre, hext, ← List.map_append, List.take_append_drop]
  have hpairfull : List.Pairwise (fun a b : HRow => a.applied_at ≤ b.applied_at)
      (runMigs (appliedIds db) db migs).db.history := by
    rw [h1]
    rw [List.pairwise_append]
    exact ⟨hpair, h4, fun a ha b hb =>
      Nat.le_of_lt (Nat.lt_of_lt_of_le (hclock a ha) (h3 b hb))⟩
  have hlen : (runMigs (appliedIds db) db migs).db.history.length = migs.length := by
    have := congrArg List.length hidfull
    simpa using this
  have hnodupfull : ((runMigs (appliedIds db) db migs).db.history.map HRow.id).Nodup := by
    rw [hidfull]; exact hnodup
  intro i j hi hj hij ti tj hti htj
  set hs := (runMigs (appliedIds db) db migs).db.history with hhs
  have hid : ∀ (a : Nat) (ha : a < migs.length) (ha2 : a < hs.length),
      (hs.get ⟨a, ha2⟩).id = migs[a].id := by
    intro a ha ha2
    have h := congrArg (fun l => l[a]?) hidfull
    simp only at h
    rw [List.getElem?_map, List.getElem?_map,
      List.getElem?_eq_getElem ha2, List.getElem?_eq_getElem ha] at h
    simpa using h
  have hfind : ∀ (a : Nat) (ha : a < migs.length) (ha2 : a < hs.length),
      tsOf (runMigs (appliedIds db) db migs).db migs[a].id =
        some ((hs.get ⟨a, ha2⟩).applied_at) := by
    intro a ha ha2
    unfold tsOf
    rw [← hid a ha ha2]
    rw [show (runMigs (appliedIds db) db migs).db.history = hs from rfl]
    rw [find_at_index hs hnodupfull a ha2]
    rfl
  have h2i : i < hs.length := by omega
  have h2j : j < hs.length := by omega
  rw [hfind i hi h2i] at hti
  rw [hfind j hj h2j] at htj
  have h1i := Option.some.inj hti
  have h1j := Option.some.inj htj
  rw [← h1i, ← h1j]
  exact List.pairwise_iff_get.mp hpairfull ⟨i, h2i⟩ ⟨j, h2j⟩ (by simpa using hij)

theorem claim_C5_order_timestamps_witness :
    (∃ ext, (runMigs (appliedIds dbFresh) dbFresh MIGRATIONS).db.history =
        dbFresh.history ++ ext ∧
      ext.map HRow.id = (MIGRATIONS.drop 0).map Migration.id) ∧
    ∀ ti tj,
      tsOf (runMigs (appliedIds dbFresh) dbFresh MIGRATIONS).db
        (MIGRATIONS.get ⟨0, by decide⟩).id = some ti →
      tsOf (runMigs (appliedIds dbFresh) dbFresh MIGRATIONS).db
        (MIGRATIONS.get ⟨1, by decide⟩).id = some tj →
      ti ≤ tj := by
  have hok : (runMigs (appliedIds dbFresh) dbFresh MIGRATIONS).err = none :=
    runMigs_total (appliedIds dbFresh) MIGRATIONS dbFresh MIGRATIONS_total
      MIGRATIONS_ids_nodup
      (by intro m _ _
          show m.id ∉ appliedIds dbFresh
          simp [appliedIds, dbFresh])
  have h := claim_C5_order_timestamps MIGRATIONS dbFresh 0 MIGRATIONS_preserves
    MIGRATIONS_ids_nodup rfl List.Pairwise.nil (by simp [dbFresh]) hok
  exact ⟨h.1, fun ti tj hti htj =>
    h.2 0 1 (by decide) (by decide) (by decide) ti tj hti htj⟩

theorem claim_C7_idempotent_upgrades_witness :
    upgradeFn stmts_0002 (execStmts dbFresh ((stmts_0002 dbFresh).take 1)) =
      upgradeFn stmts_0002 dbFresh :=
  claim_C7_idempotent_upgrades.2 stmts_0002 (by simp [migStmtFns]) dbFresh 1

theorem claim_C8_isFullyMigrated_witness :
    isFullyMigrated dbFresh = true ↔
      ∀ m ∈ MIGRATIONS, m.id ∈ appliedIds dbFresh :=
  claim_C8_isFullyMigrated dbFresh

end Migrator
